import Mathlib

/-!
Verification development for the PipeWire node runtime and the bluez5 A2DP
codec loader.

The definitions below are shallow embeddings of the C sources:
  * `src/spa/plugins/bluez5/codec-loader.c` (codec registry),
  * `src/src/pipewire/node.c` (node state machine, driver linkage,
    real-time graph rewire, port-map reconciliation).

C pointers to codec descriptors are modelled by a `ptr : Nat` field (the
comparator `codec_order_cmp` compares raw pointers to break ties), intrusive
lists by Lean lists, and the per-direction `pw_map` port table by a
`List (Option Nat)` of slots (a slot holds the identity token of the port
stored there, or `none` for a free slot).
-/

namespace PW

/-! ## A2DP codec loader (`src/spa/plugins/bluez5/codec-loader.c`) -/

/-- `enum spa_bluetooth_audio_codec` members that appear in the priority
table of `codec_order`, plus `other` for any other codec id. -/
inductive BtCodec
  | ldac
  | aptx_hd
  | aptx
  | aac
  | mpeg
  | sbc
  | sbc_xq
  | faststream
  | faststream_duplex
  | aptx_ll
  | aptx_ll_duplex
  | other (n : Nat)
deriving DecidableEq, Repr

/-- `struct a2dp_codec`, restricted to the fields the loader reads:
`id`, `name`, `endpoint_name`; `ptr` models the descriptor's address
(used by `codec_order_cmp` for tie-breaking and by the dedup loop only
through the fields). -/
structure A2dpCodec where
  id : BtCodec
  name : String
  endpointName : Option String
  ptr : Nat
deriving DecidableEq, Repr

/-- `codec_order`: index of the codec id in the static priority table,
`11` (the table size) when absent. -/
def codec_order (c : A2dpCodec) : Nat :=
  match c.id with
  | .ldac => 0
  | .aptx_hd => 1
  | .aptx => 2
  | .aac => 3
  | .mpeg => 4
  | .sbc => 5
  | .sbc_xq => 6
  | .faststream => 7
  | .faststream_duplex => 8
  | .aptx_ll => 9
  | .aptx_ll_duplex => 10
  | .other _ => 11

/-- `codec_order_cmp`: `0` for the same descriptor (pointer equality),
otherwise pointer comparison inside one priority class and the difference
of the priority indices across classes. -/
def codec_order_cmp (a b : A2dpCodec) : Int :=
  if a.ptr = b.ptr then 0
  else if codec_order a = codec_order b then
    (if a.ptr < b.ptr then -1 else 1)
  else (codec_order a : Int) - (codec_order b : Int)

/-- The non-strict order induced by `codec_order_cmp`; `qsort` with this
comparator produces the unique list ordered by it (the comparator never
returns `0` on descriptors at distinct addresses, so the sorted permutation
is unique and independent of the sorting algorithm). -/
def cmpLe (a b : A2dpCodec) : Prop := codec_order_cmp a b ≤ 0

instance : DecidableRel cmpLe := fun a b =>
  inferInstanceAs (Decidable (codec_order_cmp a b ≤ 0))

/-- Strict ordering on descriptors: by priority index, ties by address.
On descriptors at pairwise distinct addresses this is exactly
`codec_order_cmp · · < 0`. -/
def codecLt (a b : A2dpCodec) : Prop :=
  codec_order a < codec_order b ∨ (codec_order a = codec_order b ∧ a.ptr < b.ptr)

instance : DecidableRel codecLt := fun a b =>
  inferInstanceAs
    (Decidable (codec_order a < codec_order b ∨
      (codec_order a = codec_order b ∧ a.ptr < b.ptr)))

/-- The dedup identity: `endpoint_name` when non-null, else `name`
(`ep1` / `ep2` in `load_a2dp_codecs_from`). -/
def epName (c : A2dpCodec) : String := c.endpointName.getD c.name

/-- `MAX_CODECS` (`0x3E`, the AVDTP endpoint ceiling). -/
def MAX_CODECS : Nat := 62

/-- Modelled from the spec: the expected codec-interface ABI version
(`SPA_VERSION_BLUEZ5_CODEC_A2DP`, declared outside this repository's
sources); a factory whose interface reports a different version is
rejected. -/
def abiVersion : Nat := 0

/-- What the plugin loader yields for one factory name: factory absent,
factory without the codec interface, or an interface with an ABI version
and a (null-terminated, here plain) array of codec descriptors. -/
inductive FactoryLoad
  | absent
  | noIface
  | iface (version : Nat) (codecs : List A2dpCodec)
deriving DecidableEq, Repr

/-- Loader state (`struct impl` of the codec loader): accepted codec
descriptors, retained handles and, as an explicit effect log, the handles
unloaded so far. Handles are identified by the index of their factory. -/
structure LoadSt where
  codecs : List A2dpCodec
  handles : List Nat
  unloaded : List Nat
deriving DecidableEq, Repr

/-- The codec-walk of `load_a2dp_codecs_from`: stop at `MAX_CODECS`,
skip a codec whose identity duplicates an accepted one, append the rest.
Returns the new accepted list and the number of codecs taken from this
factory (`n_codecs` in the C). -/
def acceptCodecs : List A2dpCodec → List A2dpCodec → List A2dpCodec × Nat
  | [], acc => (acc, 0)
  | c :: rest, acc =>
    if MAX_CODECS ≤ acc.length then (acc, 0)
    else if acc.any (fun c2 => epName c == epName c2) then acceptCodecs rest acc
    else
      let r := acceptCodecs rest (acc ++ [c])
      (r.1, r.2 + 1)

/-- `load_a2dp_codecs_from`: an absent factory is only logged; a factory
without the interface or with a bad ABI version is unloaded; otherwise its
codecs are walked and the handle is retained exactly when at least one
codec was accepted. -/
def loadFrom (st : LoadSt) (h : Nat) (f : FactoryLoad) : LoadSt :=
  match f with
  | .absent => st
  | .noIface => { st with unloaded := st.unloaded ++ [h] }
  | .iface v cs =>
    if v ≠ abiVersion then { st with unloaded := st.unloaded ++ [h] }
    else
      let r := acceptCodecs cs st.codecs
      if 0 < r.2 then { st with codecs := r.1, handles := st.handles ++ [h] }
      else { st with codecs := r.1, unloaded := st.unloaded ++ [h] }

/-- The loader state after the factory loop of `load_a2dp_codecs`. -/
def loadState (fs : List FactoryLoad) : LoadSt :=
  (fs.enum).foldl (fun st p => loadFrom st p.1 p.2) ⟨[], [], []⟩

/-- The `qsort` call of `load_a2dp_codecs`, modelled as the (unique, see
`cmpLe`) permutation ordered by `codec_order_cmp`. -/
def sortCodecs (l : List A2dpCodec) : List A2dpCodec := List.insertionSort cmpLe l

/-- `ENOENT`. -/
def ENOENT : Int := 2

/-- Result of `load_a2dp_codecs`: the returned list or the `errno` error
code, the retained handles, and every handle unloaded (including, on the
missing-SBC failure path, the unloads performed by `free_a2dp_codecs`). -/
structure LoadResult where
  result : Except Int (List A2dpCodec)
  retained : List Nat
  unloaded : List Nat
deriving Repr

/-- `load_a2dp_codecs`: run the factory loop, require an accepted codec
with id SBC (otherwise free everything and fail with `ENOENT`), then sort
by `codec_order_cmp`. -/
def loadA2dpCodecs (fs : List FactoryLoad) : LoadResult :=
  let st := loadState fs
  if st.codecs.any (fun c => c.id == BtCodec.sbc) then
    { result := .ok (sortCodecs st.codecs), retained := st.handles,
      unloaded := st.unloaded }
  else
    { result := .error ENOENT, retained := st.handles,
      unloaded := st.unloaded ++ st.handles }

/-- The codec array published by one factory (empty when the factory is
absent or exposes no interface). -/
def codecsOf : FactoryLoad → List A2dpCodec
  | .absent => []
  | .noIface => []
  | .iface _ cs => cs

/-- All codec descriptors published by a list of factories. -/
def allFactoryCodecs (fs : List FactoryLoad) : List A2dpCodec :=
  (fs.map codecsOf).flatten

/-! ## Node state machine (`src/src/pipewire/node.c`)

The node model keeps the fields the state-machine claims speak about:
`info.state`, `info.error`, the `active` flag, the `pause_on_idle`
property, and the pending work-queue entries added by `pw_node_set_state`
(target state paired with the command result, the key under which
`on_state_complete` later fires).  Per-port effects (format clearing in
`suspend_node`, link (de)activation) act on ports and links, which are
out of scope here; the commands sent to the implementation are recorded
in an explicit command log instead. -/

/-- `enum pw_node_state`. -/
inductive NState
  | creating
  | suspended
  | idle
  | running
  | error
deriving DecidableEq, Repr

/-- The numeric values of `enum pw_node_state` (`ERROR = -1`,
`CREATING = 0`, ..., `RUNNING = 3`), used by the `state <= IDLE`
comparison in `pause_node`. -/
def NState.toInt : NState → Int
  | .error => -1
  | .creating => 0
  | .suspended => 1
  | .idle => 2
  | .running => 3

/-- The `state` and `error` members of `struct pw_node_info`. -/
structure NodeInfo where
  state : NState
  error : Option String
deriving DecidableEq, Repr

/-- Events emitted by the node that the claims mention. -/
inductive NEvent
  | stateRequest (target : NState)
  | stateChanged (old new : NState) (err : Option String)
  | infoChanged
deriving DecidableEq, Repr

/-- Commands dispatched to the implementation: `Pause`, `Start`, and the
per-port format clearing performed by `suspend_node`. -/
inductive Cmd
  | pause
  | start
  | suspend
deriving DecidableEq, Repr

/-- The node, restricted to the state-machine fields. -/
structure Node where
  info : NodeInfo
  active : Bool
  pauseOnIdle : Bool
  queue : List (NState × Int)
deriving DecidableEq, Repr

/-- The error string built by `on_state_complete` via `asprintf`. -/
def errMsg (res : Int) : String := "error changing node state: " ++ toString res

/-- `pw_node_update_state`: no-op when the state is unchanged, otherwise
replace `info.error` and `info.state`, on IDLE send Pause when
`pause_on_idle` is set (link deactivation not modelled), and emit
`state_changed` followed by `info_changed`. -/
def updateState (nd : Node) (st : NState) (err : Option String) :
    Node × List NEvent × List Cmd :=
  if nd.info.state = st then (nd, [], [])
  else
    ({ nd with info := { state := st, error := err } },
     [NEvent.stateChanged nd.info.state st err, NEvent.infoChanged],
     if st = .idle then (if nd.pauseOnIdle then [Cmd.pause] else []) else [])

/-- The tail of `pw_node_set_state`: a synchronously failing command
returns its error to the caller without enqueuing, otherwise an
`on_state_complete` continuation keyed by the result is put on the work
queue (`pw_work_queue_add`). -/
def finishSet (nd : Node) (target : NState) (res : Int) (evs : List NEvent)
    (cmds : List Cmd) : Node × Int × List NEvent × List Cmd :=
  if res < 0 then (nd, res, evs, cmds)
  else ({ nd with queue := nd.queue ++ [(target, res)] }, res, evs, cmds)

/-- `pw_node_set_state`.  `implRes` is the result the implementation
returns for the command this call sends (the last `pw_port_set_param`
result for SUSPENDED, the `Pause`/`Start` command result otherwise);
branches that send no command do not consult it.  Returns the node, the
return value, the emitted events and the dispatched commands.
`CREATING` is rejected with `-EIO` (the spec's `InvalidState` kind). -/
def setState (nd : Node) (target : NState) (implRes : Int) :
    Node × Int × List NEvent × List Cmd :=
  if nd.info.state = target then (nd, 0, [], [])
  else
    let evs := [NEvent.stateRequest target]
    match target with
    | .creating => (nd, -5, evs, [])
    | .suspended => finishSet nd target implRes evs [Cmd.suspend]
    | .idle =>
      if nd.active then finishSet nd target 0 evs []
      else if nd.info.state.toInt ≤ NState.idle.toInt then finishSet nd target 0 evs []
      else finishSet nd target implRes evs [Cmd.pause]
    | .running =>
      if nd.active then finishSet nd target implRes evs [Cmd.start]
      else finishSet nd target 0 evs []
    | .error => finishSet nd target 0 evs []

/-- Firing the pending `on_state_complete` continuation at queue index
`i` (the work queue completes entries keyed by sequence number, so any
pending entry may fire): a negative completion result switches the target
to ERROR with an `asprintf`-built message, then `pw_node_update_state`
runs. -/
def completeAt (nd : Node) (i : Nat) : Node × List NEvent × List Cmd :=
  match nd.queue.get? i with
  | none => (nd, [], [])
  | some (t, r) =>
    let nd1 : Node := { nd with queue := nd.queue.eraseIdx i }
    if r < 0 then updateState nd1 .error (some (errMsg r))
    else updateState nd1 t none

/-- Node states reachable after registration (`pw_node_register` ends in
`update_state(SUSPENDED, NULL)` on a fresh node) under the disciplined
use of the API: `set_state` is never called with target ERROR, and direct
`update_state` calls pass a non-null error exactly when the new state is
ERROR (the discipline every internal call site of `node.c` follows). -/
inductive ReachD : Node → Prop
  | registered (a p : Bool) : ReachD ⟨⟨.suspended, none⟩, a, p, []⟩
  | set {nd} (t : NState) (r : Int) (ht : t ≠ .error) (h : ReachD nd) :
      ReachD (setState nd t r).1
  | complete {nd} (i : Nat) (h : ReachD nd) : ReachD (completeAt nd i).1
  | upd {nd} (t : NState) (e : Option String) (he : e ≠ none ↔ t = .error)
      (h : ReachD nd) : ReachD (updateState nd t e).1

/-! ## Driver linkage (`pw_node_set_driver`) -/

/-- Pointwise update of a function, used for the per-node lists. -/
def upd {α : Type} (f : Nat → α) (k : Nat) (v : α) : Nat → α :=
  fun i => if i = k then v else f i

/-- The driver-linkage view of a set of nodes (nodes named by ids):
`driverNode n` is `n`'s driver back-reference, `driverList d` the ordered
members of `d`'s `driver_list`. -/
structure DSys where
  driverNode : Nat → Nat
  driverList : Nat → List Nat

/-- One iteration of the `spa_list_for_each_safe` loop in
`pw_node_set_driver`: unlink member `m` from whatever `driver_list` holds
it, append it to `driver`'s list, update its back-reference and emit
`driver_changed(m, driver)`. -/
def moveMember (driver : Nat) (st : DSys × List (Nat × Nat)) (m : Nat) :
    DSys × List (Nat × Nat) :=
  let dl := fun d => (st.1.driverList d).filter (fun x => x != m)
  ({ driverNode := upd st.1.driverNode m driver,
     driverList := upd dl driver (dl driver ++ [m]) },
   st.2 ++ [(m, driver)])

/-- `pw_node_set_driver` (non-real-time bookkeeping): `NULL` means the
node itself; no-op if already the driver; otherwise relink the node into
`driver`'s list, move every member of the node's own `driver_list` there
(the loop iterates the members present when it starts; when
`driver == node` the node itself was just appended to that list and is
therefore moved — and notified — by the loop as well), and finally emit
`driver_changed(node, driver)`.  The deferred `do_move_nodes` invocation
is modelled separately by `doMoveNodes`. -/
def setDriver (s : DSys) (node : Nat) (drv : Option Nat) :
    DSys × List (Nat × Nat) :=
  let driver := drv.getD node
  if s.driverNode node = driver then (s, [])
  else
    let dl1 := fun d => (s.driverList d).filter (fun x => x != node)
    let s1 : DSys :=
      { driverNode := upd s.driverNode node driver,
        driverList := upd dl1 driver (dl1 driver ++ [node]) }
    let r := (s1.driverList node).foldl (moveMember driver) (s1, [])
    (r.1, r.2 ++ [(node, driver)])

/-- The driver-swap scenario start state: node 0 (A) drives nodes
0, 1, 2 (A, B, C); B and C head no group of their own. -/
def sysABC : DSys :=
  { driverNode := fun _ => 0,
    driverList := fun d => if d = 0 then [0, 1, 2] else [] }

/-! ## Real-time rewire (`do_move_nodes`) -/

/-- Driver-graph node lists: `g d` is the list of graph-nodes currently
attached to the driver-graph of the node with id `d`.  A node's `rt.root`
graph-node is named by the node's id. -/
def graphRemove (g : Nat → List Nat) (r : Nat) : Nat → List Nat :=
  fun d => (g d).filter (fun x => x != r)

/-- `spa_graph_node_add`: append graph-node `r` to `d`'s driver-graph. -/
def graphAdd (g : Nat → List Nat) (d r : Nat) : Nat → List Nat :=
  upd g d (g d ++ [r])

/-- `do_move_nodes`, the deferred invocation run on the data-loop:
detach `node`'s `rt.root` from its current driver-graph and attach it to
`node`'s own driver-graph, then move every graph-node of that source
graph (iterated as the members present when the loop starts, matching
`spa_list_for_each_safe` on the reachable configurations) into the
destination driver's graph. -/
def doMoveNodes (g : Nat → List Nat) (node dst : Nat) : Nat → List Nat :=
  ((graphAdd (graphRemove g node) node node) node).foldl
    (fun acc r => graphAdd (graphRemove acc r) dst r)
    (graphAdd (graphRemove g node) node node)

/-- Driver-graph start state of the driver-swap scenario: the roots of
nodes 0, 1, 2 (A, B, C) all sit in A's driver-graph. -/
def graphsABC : Nat → List Nat := fun d => if d = 0 then [0, 1, 2] else []

/-! ## Port-map reconciliation (`update_port_map`) -/

/-- `pw_map_lookup` on the slot array: the slot's content below the array
size, `NULL` (`none`) beyond it.  A slot holds the identity token of the
port stored there. -/
def mget : List (Option Nat) → Nat → Option Nat
  | [], _ => none
  | v :: _, 0 => v
  | _ :: t, n + 1 => mget t n

/-- Overwrite slot `n` (no-op beyond the array). -/
def mset : List (Option Nat) → Nat → Option Nat → List (Option Nat)
  | [], _, _ => []
  | _ :: t, 0, v => v :: t
  | w :: t, n + 1, v => w :: mset t n v

/-- Modelled from the spec: `pw_port_add` storing a newly created port
into the map at its port id (`pw_map` insertion is outside this
repository's sources) — existing slots are overwritten, the array grows
as needed. -/
def mapInsertAt (t : List (Option Nat)) (i : Nat) (v : Option Nat) :
    List (Option Nat) :=
  if i < t.length then mset t i v
  else t ++ List.replicate (i - t.length) none ++ [v]

/-- The two-pointer loop of `update_port_map` over the current id space
`[0, os)` and the reported ids.  `o`, `n`, `os` are the loop variables of
the C code; `ids.getD n 0` is `ids[n]` (only consulted when `n < n_ids`,
as in the short-circuiting C conditions).  Port destruction frees the
slot; creation (`pw_port_new` + `pw_port_add`, modelled from the spec as
always succeeding and storing the fresh token `fresh ids[n]`) bumps `os`
and skips `o` past the new id. -/
def upmGo (fresh : Nat → Nat) (ids : List Nat) (o n os : Nat)
    (t : List (Option Nat)) : List (Option Nat) :=
  if o < os ∨ n < ids.length then
    if hrem : ids.length ≤ n ∨ o < ids.getD n 0 then
      upmGo fresh ids (o + 1) n os
        (if (mget t o).isSome then mset t o none else t)
    else if hadd : os ≤ o ∨ ids.getD n 0 < o then
      if hp : (mget t o).isSome then
        upmGo fresh ids o (n + 1) os t
      else
        upmGo fresh ids (ids.getD n 0 + 1) (n + 1) (os + 1)
          (mapInsertAt t (ids.getD n 0) (some (fresh (ids.getD n 0))))
    else
      upmGo fresh ids (o + 1) (n + 1) os t
  else t
termination_by
  (ids.length - n, os - o + (if n < ids.length then ids.getD n 0 + 1 - o else 0))
decreasing_by
  · apply Prod.Lex.right
    split_ifs <;> omega
  · apply Prod.Lex.left
    omega
  · apply Prod.Lex.left
    omega
  · apply Prod.Lex.left
    omega

/-- `update_port_map` for one direction: run the merge loop from the
start with `os = pw_map_get_size(portmap)`. -/
def updatePortMap (fresh : Nat → Nat) (ids : List Nat)
    (t : List (Option Nat)) : List (Option Nat) :=
  upmGo fresh ids 0 0 t.length t

/-! ## State-machine lemmas -/

/-- `pw_node_set_state` never touches `info` (state or error string); it
only ever appends a work-queue entry carrying its own target. -/
theorem setState_frame (nd : Node) (t : NState) (r : Int) :
    (setState nd t r).1.info = nd.info ∧
      ((setState nd t r).1.queue = nd.queue ∨
        ∃ res, (setState nd t r).1.queue = nd.queue ++ [(t, res)]) := by
  obtain ⟨info, act, poi, q⟩ := nd
  cases t <;> simp only [setState, finishSet] <;> split_ifs <;>
    first
      | exact ⟨rfl, Or.inl rfl⟩
      | exact ⟨rfl, Or.inr ⟨_, rfl⟩⟩

/-- `pw_node_update_state` keeps the error-string discipline when called
with an error exactly for ERROR, and never touches the work queue. -/
theorem updateState_inv (nd : Node) (t : NState) (e : Option String)
    (he : e ≠ none ↔ t = .error)
    (hnd : nd.info.state = .error ↔ nd.info.error ≠ none) :
    ((updateState nd t e).1.info.state = .error ↔
      (updateState nd t e).1.info.error ≠ none) ∧
      (updateState nd t e).1.queue = nd.queue := by
  unfold updateState
  by_cases h : nd.info.state = t
  · rw [if_pos h]
    exact ⟨hnd, rfl⟩
  · rw [if_neg h]
    refine ⟨?_, rfl⟩
    simpa using he.symm

/-- Invariant carried along `ReachD`: the error-string iff plus the fact
that no pending work-queue entry targets ERROR. -/
theorem reachD_good {nd : Node} (h : ReachD nd) :
    (nd.info.state = .error ↔ nd.info.error ≠ none) ∧
      ∀ p ∈ nd.queue, p.1 ≠ NState.error := by
  induction h with
  | registered a p => simp
  | set t r ht h ih =>
    obtain ⟨hinfo, hq⟩ := setState_frame _ t r
    refine ⟨by rw [hinfo]; exact ih.1, fun p hp => ?_⟩
    rcases hq with h1 | ⟨res, h1⟩
    · exact ih.2 p (h1 ▸ hp)
    · rw [h1] at hp
      rcases List.mem_append.1 hp with h2 | h2
      · exact ih.2 p h2
      · have hpt : p = (t, res) := by simpa using h2
        rw [hpt]
        exact ht
  | complete i h ih =>
    rename_i nd'
    rcases hg : nd'.queue.get? i with _ | ⟨t, r⟩
    · simp only [completeAt, hg]
      exact ih
    · have hmem : (t, r) ∈ nd'.queue := List.get?_mem hg
      have htne : t ≠ NState.error := ih.2 (t, r) hmem
      have herase : ∀ p ∈ nd'.queue.eraseIdx i, p.1 ≠ NState.error := fun p hp =>
        ih.2 p ((List.eraseIdx_sublist nd'.queue i).subset hp)
      simp only [completeAt, hg]
      by_cases hr : r < 0
      · rw [if_pos hr]
        obtain ⟨h1, h2⟩ :=
          updateState_inv ⟨nd'.info, nd'.active, nd'.pauseOnIdle, nd'.queue.eraseIdx i⟩
            .error (some (errMsg r)) (by simp) ih.1
        exact ⟨h1, by rw [h2]; exact herase⟩
      · rw [if_neg hr]
        obtain ⟨h1, h2⟩ :=
          updateState_inv ⟨nd'.info, nd'.active, nd'.pauseOnIdle, nd'.queue.eraseIdx i⟩
            t none (by simpa using htne) ih.1
        exact ⟨h1, by rw [h2]; exact herase⟩
  | upd t e he h ih =>
    obtain ⟨h1, h2⟩ := updateState_inv _ t e he ih.1
    exact ⟨h1, by rw [h2]; exact ih.2⟩

/-- C6 (counterexample): starting from a freshly registered node
(SUSPENDED, no error), the call sequence `pw_node_set_state(node, ERROR)`
followed by the completion of the enqueued continuation (the command
result is `0`: the ERROR case of the switch sends nothing) drives
`info.state` to ERROR while `info.error` stays null, so the invariant
`info.state == ERROR iff info.error != null` fails on a state reachable
through the claimed operations. -/
theorem C6_counterexample :
    (completeAt (setState ⟨⟨.suspended, none⟩, false, true, []⟩ .error 0).1 0).1.info.state
        = NState.error ∧
      (completeAt (setState ⟨⟨.suspended, none⟩, false, true, []⟩ .error 0).1 0).1.info.error
        = none := by
  decide

/-- C6 (amended): for every node reachable from registration under the
discipline actually used by the internal call sites — `set_state` is
never invoked with target ERROR, and direct `update_state` calls carry a
non-null error exactly when the new state is ERROR — the invariant
`info.state == ERROR iff info.error != null` holds. -/
theorem C6_amended_error_invariant (nd : Node) (h : ReachD nd) :
    nd.info.state = .error ↔ nd.info.error ≠ none :=
  (reachD_good h).1

/-- C6 witness: the invariant holds on the freshly registered node. -/
theorem C6_witness :
    (⟨⟨.suspended, none⟩, true, true, []⟩ : Node).info.state = .error ↔
      (⟨⟨.suspended, none⟩, true, true, []⟩ : Node).info.error ≠ none :=
  C6_amended_error_invariant ⟨⟨.suspended, none⟩, true, true, []⟩
    (ReachD.registered true true)

/-- C7: `pw_node_set_state` never modifies `info` (so a transition to
ERROR can only come from `pw_node_update_state`), and when the command it
dispatched fails synchronously (negative result) it returns that error
code with the node — including the work queue — completely unchanged: no
`on_state_complete` continuation is enqueued. -/
theorem C7_sync_failure_atomicity (nd : Node) (target : NState) (r : Int) :
    (setState nd target r).1.info = nd.info ∧
      (r < 0 → (setState nd target r).2.2.2 ≠ [] →
        (setState nd target r).1 = nd ∧ (setState nd target r).2.1 = r) := by
  obtain ⟨info, act, poi, q⟩ := nd
  cases target <;> simp only [setState, finishSet] <;> split_ifs <;>
    refine ⟨rfl, fun hr hc => ?_⟩ <;>
    first
      | exact absurd rfl hc
      | exact ⟨rfl, rfl⟩
      | omega

/-- C7 witness: a suspended active node asked to RUN with the `Start`
command failing synchronously with `-3` is left unchanged and gets `-3`
back. -/
theorem C7_witness :
    (setState ⟨⟨.suspended, none⟩, true, true, []⟩ .running (-3)).1 =
        ⟨⟨.suspended, none⟩, true, true, []⟩ ∧
      (setState ⟨⟨.suspended, none⟩, true, true, []⟩ .running (-3)).2.1 = -3 :=
  (C7_sync_failure_atomicity ⟨⟨.suspended, none⟩, true, true, []⟩ .running (-3)).2
    (by decide) (by decide)

/-- C8: for a node not in CREATING, `pw_node_set_state(node, CREATING)`
fails with `-EIO` (the encoding of the spec's `InvalidState` kind for
this case), leaves the node — in particular `info.state` and the work
queue — unchanged, and dispatches no command to the implementation. -/
theorem C8_creating_rejected (nd : Node) (r : Int)
    (h : nd.info.state ≠ .creating) :
    setState nd .creating r = (nd, -5, [NEvent.stateRequest .creating], []) := by
  simp only [setState]
  rw [if_neg h]

/-- C8 witness: rejecting CREATING on a suspended node. -/
theorem C8_witness :
    setState ⟨⟨.suspended, none⟩, false, true, []⟩ .creating 7 =
      (⟨⟨.suspended, none⟩, false, true, []⟩, -5,
        [NEvent.stateRequest .creating], []) :=
  C8_creating_rejected ⟨⟨.suspended, none⟩, false, true, []⟩ 7 (by decide)

/-- C10: `pw_node_set_state` with the current state returns `0` at once:
no `state_request` event, no command, no work-queue entry, node
unchanged. -/
theorem C10_same_state_noop (nd : Node) (r : Int) :
    setState nd nd.info.state r = (nd, 0, [], []) := by
  simp [setState]

/-- C3 (counterexample): in the scenario A drives {A, B, C},
`set_driver(B, NULL)` does **not** fire `driver_changed(B, B)` exactly
once: B is first appended to its own `driver_list`, so the group-move
loop notifies it once and the final notification fires again — twice in
total. -/
theorem C3_counterexample :
    ¬ (setDriver sysABC 1 none).2.count (1, 1) = 1 := by
  decide

/-- C3 (amended): `pw_node_set_driver(node, d)` with `d == NULL` meaning
the node itself returns success without any change when `d` equals the
current `driver_node`; in the scenario A drives {A, B, C},
`set_driver(B, NULL)` leaves `B.driver_node == B`, `B.driver_list`
containing exactly B, `A.driver_list` containing A and C, and fires
`driver_changed(B, B)` exactly twice (once from the group-move loop,
once as the final notification). -/
theorem C3_amended_driver_swap :
    (∀ (s : DSys) (node : Nat) (drv : Option Nat),
        s.driverNode node = drv.getD node → setDriver s node drv = (s, [])) ∧
      ((setDriver sysABC 1 none).1.driverNode 1 = 1 ∧
        (setDriver sysABC 1 none).1.driverList 1 = [1] ∧
        (setDriver sysABC 1 none).1.driverList 0 = [0, 2] ∧
        (setDriver sysABC 1 none).2 = [(1, 1), (1, 1)]) := by
  constructor
  · intro s node drv h
    simp only [setDriver]
    rw [if_pos h]
  · exact ⟨by decide, by decide, by decide, by decide⟩

/-- C3 witness: `set_driver(A, NULL)` on the scenario system is a no-op
(A already drives itself). -/
theorem C3_witness : setDriver sysABC 0 none = (sysABC, []) :=
  C3_amended_driver_swap.1 sysABC 0 none (by decide)

/-- C4: after `do_move_nodes` runs on the data-loop for
`set_driver(node, d)`, `node`'s `rt.root` is attached to `d`'s
driver-graph and detached from every other driver-graph (in particular
from the previous driver's). -/
theorem C4_rt_rewire (g : Nat → List Nat) (node dst p : Nat) :
    node ∈ doMoveNodes g node dst dst ∧
      (p ≠ dst → node ∉ doMoveNodes g node dst p) := by
  have hm : (graphAdd (graphRemove g node) node node) node =
      ((g node).filter (fun x => x != node)) ++ [node] := by
    simp [graphAdd, graphRemove, upd]
  unfold doMoveNodes
  rw [hm, List.foldl_append]
  simp only [List.foldl_cons, List.foldl_nil]
  constructor
  · simp [graphAdd, upd]
  · intro hp
    simp [graphAdd, graphRemove, upd, hp, List.mem_filter]

/-- C4 witness: the driver-swap scenario: after the rewire for
`set_driver(B, NULL)`, B's root is in B's driver-graph and no longer in
A's. -/
theorem C4_witness :
    1 ∈ doMoveNodes graphsABC 1 1 1 ∧ 1 ∉ doMoveNodes graphsABC 1 1 0 :=
  ⟨(C4_rt_rewire graphsABC 1 1 0).1,
    (C4_rt_rewire graphsABC 1 1 0).2 (by decide)⟩

/-! ## Codec-loader lemmas -/

/-- The codec walk appends a subsequence of the factory's codec array and
reports how many codecs it took. -/
theorem acceptCodecs_spec :
    ∀ (cs acc : List A2dpCodec),
      ∃ ext, acceptCodecs cs acc = (acc ++ ext, ext.length) ∧ ext.Sublist cs := by
  intro cs
  induction cs with
  | nil =>
    intro acc
    exact ⟨[], by simp [acceptCodecs], List.nil_sublist _⟩
  | cons c rest ih =>
    intro acc
    by_cases h1 : MAX_CODECS ≤ acc.length
    · exact ⟨[], by simp [acceptCodecs, h1], List.nil_sublist _⟩
    · by_cases h2 : acc.any (fun c2 => epName c == epName c2) = true
      · obtain ⟨ext, he, hs⟩ := ih acc
        exact ⟨ext, by simp [acceptCodecs, h1, h2, he], hs.cons c⟩
      · obtain ⟨ext, he, hs⟩ := ih (acc ++ [c])
        refine ⟨c :: ext, ?_, hs.cons₂ c⟩
        simp [acceptCodecs, h1, h2, he, List.append_assoc]

/-- The codec walk preserves pairwise-distinct identities: a codec whose
identity matches an accepted one is skipped. -/
theorem acceptCodecs_pairwise :
    ∀ (cs acc : List A2dpCodec),
      acc.Pairwise (fun a b => epName a ≠ epName b) →
      (acceptCodecs cs acc).1.Pairwise (fun a b => epName a ≠ epName b) := by
  intro cs
  induction cs with
  | nil => intro acc h; simpa [acceptCodecs] using h
  | cons c rest ih =>
    intro acc h
    by_cases h1 : MAX_CODECS ≤ acc.length
    · simpa [acceptCodecs, h1] using h
    · by_cases h2 : acc.any (fun c2 => epName c == epName c2) = true
      · simpa [acceptCodecs, h1, h2] using ih acc h
      · have hall : ∀ x ∈ acc, epName x ≠ epName c := by
          intro x hx hxe
          rw [List.any_eq_true] at h2
          exact h2 ⟨x, hx, by simp [hxe]⟩
        have hnext : (acc ++ [c]).Pairwise (fun a b => epName a ≠ epName b) := by
          rw [List.pairwise_append]
          exact ⟨h, by simp, fun a ha b hb => by
            rw [List.mem_singleton.1 hb]; exact hall a ha⟩
        simpa [acceptCodecs, h1, h2] using ih (acc ++ [c]) hnext

/-- `codecLt` is transitive. -/
theorem codecLt_trans {a b c : A2dpCodec} (h1 : codecLt a b) (h2 : codecLt b c) :
    codecLt a c := by
  unfold codecLt at h1 h2 ⊢
  omega

/-- On descriptors at distinct addresses, a non-positive comparator value
means strictly smaller in the `(priority, address)` order. -/
theorem cmpLe_codecLt {a b : A2dpCodec} (hne : a.ptr ≠ b.ptr) (h : cmpLe a b) :
    codecLt a b := by
  unfold cmpLe codec_order_cmp at h
  rw [if_neg hne] at h
  by_cases ho : codec_order a = codec_order b
  · rw [if_pos ho] at h
    by_cases hp : a.ptr < b.ptr
    · exact Or.inr ⟨ho, hp⟩
    · rw [if_neg hp] at h
      omega
  · rw [if_neg ho] at h
    left
    omega

/-- On descriptors at distinct addresses, a positive comparator value
means strictly greater. -/
theorem not_cmpLe_codecLt {a b : A2dpCodec} (hne : a.ptr ≠ b.ptr)
    (h : ¬ cmpLe a b) : codecLt b a := by
  unfold cmpLe codec_order_cmp at h
  rw [if_neg hne] at h
  by_cases ho : codec_order a = codec_order b
  · rw [if_pos ho] at h
    by_cases hp : a.ptr < b.ptr
    · rw [if_pos hp] at h
      omega
    · exact Or.inr ⟨ho.symm, by omega⟩
  · rw [if_neg ho] at h
    left
    omega

/-- Inserting a descriptor with a fresh address into a `codecLt`-sorted
list keeps it sorted. -/
theorem orderedInsert_pairwise (c : A2dpCodec) :
    ∀ (l : List A2dpCodec), l.Pairwise codecLt → (∀ x ∈ l, x.ptr ≠ c.ptr) →
      (List.orderedInsert cmpLe c l).Pairwise codecLt := by
  intro l
  induction l with
  | nil => intro _ _; simp [List.orderedInsert]
  | cons x xs ih =>
    intro hp hptr
    rw [List.orderedInsert]
    by_cases hcx : cmpLe c x
    · rw [if_pos hcx]
      have hlt : codecLt c x :=
        cmpLe_codecLt (fun he => hptr x (by simp) he.symm) hcx
      refine List.Pairwise.cons ?_ hp
      intro y hy
      rcases List.mem_cons.1 hy with rfl | hy
      · exact hlt
      · exact codecLt_trans hlt ((List.pairwise_cons.1 hp).1 y hy)
    · rw [if_neg hcx]
      have hxc : codecLt x c :=
        not_cmpLe_codecLt (fun he => hptr x (by simp) he.symm) hcx
      refine List.Pairwise.cons ?_
        (ih (List.pairwise_cons.1 hp).2 (fun y hy => hptr y (by simp [hy])))
      intro y hy
      rw [List.mem_orderedInsert] at hy
      rcases hy with rfl | hy
      · exact hxc
      · exact (List.pairwise_cons.1 hp).1 y hy

/-- The modelled `qsort` output is sorted in the strict
`(priority, address)` order when all addresses are distinct. -/
theorem sortCodecs_pairwise :
    ∀ (l : List A2dpCodec), (l.map A2dpCodec.ptr).Nodup →
      (sortCodecs l).Pairwise codecLt := by
  intro l
  induction l with
  | nil => intro _; simp [sortCodecs, List.insertionSort]
  | cons c cs ih =>
    intro h
    simp only [List.map_cons, List.nodup_cons] at h
    rw [sortCodecs, List.insertionSort]
    apply orderedInsert_pairwise
    · exact ih h.2
    · intro x hx he
      have hxcs : x ∈ cs := (List.perm_insertionSort cmpLe cs).mem_iff.1 hx
      exact h.1 (by rw [← he]; exact List.mem_map_of_mem _ hxcs)

/-- One factory step appends a subsequence of that factory's codecs. -/
theorem loadFrom_codecs (st : LoadSt) (h : Nat) (f : FactoryLoad) :
    ∃ ext, (loadFrom st h f).codecs = st.codecs ++ ext ∧
      ext.Sublist (codecsOf f) := by
  cases f with
  | absent => exact ⟨[], by simp [loadFrom], List.nil_sublist _⟩
  | noIface => exact ⟨[], by simp [loadFrom], List.nil_sublist _⟩
  | iface v cs =>
    by_cases hv : v = abiVersion
    · obtain ⟨ext, he, hs⟩ := acceptCodecs_spec cs st.codecs
      refine ⟨ext, ?_, hs⟩
      simp only [loadFrom, hv, ne_eq, not_true_eq_false, if_false]
      split <;> simp [he]
    · exact ⟨[], by simp [loadFrom, hv, codecsOf], List.nil_sublist _⟩

/-- One factory step preserves pairwise-distinct identities. -/
theorem loadFrom_pairwise (st : LoadSt) (h : Nat) (f : FactoryLoad)
    (hp : st.codecs.Pairwise (fun a b => epName a ≠ epName b)) :
    (loadFrom st h f).codecs.Pairwise (fun a b => epName a ≠ epName b) := by
  cases f with
  | absent => simpa [loadFrom] using hp
  | noIface => simpa [loadFrom] using hp
  | iface v cs =>
    by_cases hv : v = abiVersion
    · simp only [loadFrom, hv, ne_eq, not_true_eq_false, if_false]
      split <;> simpa using acceptCodecs_pairwise cs st.codecs hp
    · simpa [loadFrom, hv] using hp

/-- The factory fold appends a subsequence of all published codecs. -/
theorem loadFold_codecs :
    ∀ (ps : List (Nat × FactoryLoad)) (st : LoadSt),
      ∃ ext, (ps.foldl (fun st p => loadFrom st p.1 p.2) st).codecs =
          st.codecs ++ ext ∧
        ext.Sublist ((ps.map (fun p => codecsOf p.2)).flatten) := by
  intro ps
  induction ps with
  | nil => intro st; exact ⟨[], by simp, by simp⟩
  | cons p rest ih =>
    intro st
    obtain ⟨e1, he1, hs1⟩ := loadFrom_codecs st p.1 p.2
    obtain ⟨e2, he2, hs2⟩ := ih (loadFrom st p.1 p.2)
    refine ⟨e1 ++ e2, ?_, ?_⟩
    · simp [he2, he1, List.append_assoc]
    · simpa using hs1.append hs2

/-- The factory fold preserves pairwise-distinct identities. -/
theorem loadFold_pairwise :
    ∀ (ps : List (Nat × FactoryLoad)) (st : LoadSt),
      st.codecs.Pairwise (fun a b => epName a ≠ epName b) →
      ((ps.foldl (fun st p => loadFrom st p.1 p.2) st).codecs).Pairwise
        (fun a b => epName a ≠ epName b) := by
  intro ps
  induction ps with
  | nil => intro st h; simpa using h
  | cons p rest ih =>
    intro st h
    simpa using ih (loadFrom st p.1 p.2) (loadFrom_pairwise st p.1 p.2 h)

/-- The accepted codecs form a subsequence of all published codecs. -/
theorem loadState_sublist (fs : List FactoryLoad) :
    (loadState fs).codecs.Sublist (allFactoryCodecs fs) := by
  obtain ⟨ext, he, hs⟩ := loadFold_codecs fs.enum ⟨[], [], []⟩
  rw [loadState, he]
  simp only [List.nil_append]
  have hmap : (fs.enum.map (fun p => codecsOf p.2)) = fs.map codecsOf := by
    rw [show (fun p : Nat × FactoryLoad => codecsOf p.2) = codecsOf ∘ Prod.snd
          from rfl,
      ← List.map_map, List.enum_map_snd]
  rw [allFactoryCodecs, ← hmap]
  exact hs

/-- C5: `load_a2dp_codecs` succeeds only with an SBC descriptor in the
returned list; when no SBC codec was accepted it fails with `ENOENT` and
every retained factory handle is unloaded (by `free_a2dp_codecs`, which
also frees the accepted descriptors owned by those handles). -/
theorem C5_sbc_baseline (fs : List FactoryLoad) :
    (∀ l, (loadA2dpCodecs fs).result = .ok l →
        ∃ c ∈ l, c.id = BtCodec.sbc) ∧
      (∀ e, (loadA2dpCodecs fs).result = .error e →
        e = ENOENT ∧
          ∀ h ∈ (loadA2dpCodecs fs).retained,
            h ∈ (loadA2dpCodecs fs).unloaded) := by
  unfold loadA2dpCodecs
  by_cases hs : (loadState fs).codecs.any (fun c => c.id == BtCodec.sbc) = true
  · rw [if_pos hs]
    constructor
    · intro l hl
      obtain ⟨c, hc, hcid⟩ := List.any_eq_true.1 hs
      have hl2 : l = sortCodecs (loadState fs).codecs := by
        simpa using hl.symm
      refine ⟨c, ?_, by simpa using hcid⟩
      rw [hl2]
      exact ((List.perm_insertionSort cmpLe _).mem_iff).2 hc
    · intro e he
      simp at he
  · rw [if_neg hs]
    constructor
    · intro l hl
      simp at hl
    · intro e he
      refine ⟨by simpa using he.symm, fun h hh => ?_⟩
      simp only [List.mem_append]
      exact Or.inr hh

/-- C5 witness: a single factory publishing SBC loads, and the result
contains SBC. -/
theorem C5_witness :
    ∃ c ∈ [(⟨BtCodec.sbc, "sbc", none, 1⟩ : A2dpCodec)], c.id = BtCodec.sbc :=
  (C5_sbc_baseline [FactoryLoad.iface 0 [⟨BtCodec.sbc, "sbc", none, 1⟩]]).1
    [⟨BtCodec.sbc, "sbc", none, 1⟩] rfl

/-- C9: after a successful `load_a2dp_codecs`, no two returned
descriptors share the dedup identity `endpoint_name ?? name`. -/
theorem C9_dedup (fs : List FactoryLoad) (l : List A2dpCodec)
    (h : (loadA2dpCodecs fs).result = .ok l) :
    l.Pairwise (fun a b => epName a ≠ epName b) := by
  unfold loadA2dpCodecs at h
  by_cases hs : (loadState fs).codecs.any (fun c => c.id == BtCodec.sbc) = true
  · rw [if_pos hs] at h
    have hl2 : l = sortCodecs (loadState fs).codecs := by
      simpa using h.symm
    have hp : (loadState fs).codecs.Pairwise (fun a b => epName a ≠ epName b) :=
      loadFold_pairwise fs.enum ⟨[], [], []⟩ (by simp)
    rw [hl2]
    exact ((List.perm_insertionSort cmpLe _).pairwise_iff
      (fun hne => Ne.symm hne)).2 hp
  · rw [if_neg hs] at h
    simp at h

/-- C9 witness: two same-id, distinct-identity SBC codecs both survive a
successful load with distinct identities. -/
theorem C9_witness :
    List.Pairwise (fun a b => epName a ≠ epName b)
      [(⟨BtCodec.sbc, "b", none, 5⟩ : A2dpCodec),
        ⟨BtCodec.sbc, "a", none, 10⟩] :=
  C9_dedup
    [FactoryLoad.iface 0
      [⟨BtCodec.sbc, "a", none, 10⟩, ⟨BtCodec.sbc, "b", none, 5⟩]]
    [⟨BtCodec.sbc, "b", none, 5⟩, ⟨BtCodec.sbc, "a", none, 10⟩] rfl

/-- C2 (counterexample): two accepted descriptors of equal priority (both
id SBC) loaded in the order `a` (address 10) then `b` (address 5) come
out of a successful load in the order `b`, `a` — the address order, not
the insertion order the claim states. -/
theorem C2_counterexample :
    (loadState [FactoryLoad.iface 0
        [⟨BtCodec.sbc, "a", none, 10⟩, ⟨BtCodec.sbc, "b", none, 5⟩]]).codecs
        = [⟨BtCodec.sbc, "a", none, 10⟩, ⟨BtCodec.sbc, "b", none, 5⟩] ∧
      (loadA2dpCodecs [FactoryLoad.iface 0
        [⟨BtCodec.sbc, "a", none, 10⟩, ⟨BtCodec.sbc, "b", none, 5⟩]]).result
        = .ok [⟨BtCodec.sbc, "b", none, 5⟩, ⟨BtCodec.sbc, "a", none, 10⟩] ∧
      codec_order (⟨BtCodec.sbc, "a", none, 10⟩ : A2dpCodec)
        = codec_order (⟨BtCodec.sbc, "b", none, 5⟩ : A2dpCodec) ∧
      (⟨BtCodec.sbc, "a", none, 10⟩ : A2dpCodec)
        ≠ ⟨BtCodec.sbc, "b", none, 5⟩ :=
  ⟨rfl, rfl, rfl, by decide⟩

/-- C2 (amended): on every successful load whose factories publish
descriptors at pairwise distinct addresses, adjacent returned descriptors
are ordered by the priority table, descriptors of equal priority being
ordered by ascending address (which coincides with load order only when
the addresses happen to ascend in load order). -/
theorem C2_amended_ordering (fs : List FactoryLoad) (l : List A2dpCodec)
    (hok : (loadA2dpCodecs fs).result = .ok l)
    (hptr : ((allFactoryCodecs fs).map A2dpCodec.ptr).Nodup) :
    l.Chain' codecLt := by
  have hl2 : l = sortCodecs (loadState fs).codecs := by
    unfold loadA2dpCodecs at hok
    by_cases hs : (loadState fs).codecs.any (fun c => c.id == BtCodec.sbc) = true
    · rw [if_pos hs] at hok
      simpa using hok.symm
    · rw [if_neg hs] at hok
      simp at hok
  have hnd : ((loadState fs).codecs.map A2dpCodec.ptr).Nodup :=
    ((loadState_sublist fs).map A2dpCodec.ptr).nodup hptr
  rw [hl2]
  exact (sortCodecs_pairwise _ hnd).chain'

/-- C2 witness: loading `[AAC, SBC, LDAC, APTX]` (ascending addresses, in
load order) yields `[LDAC, APTX, AAC, SBC]`, which is `codecLt`-sorted. -/
theorem C2_witness :
    (loadA2dpCodecs [FactoryLoad.iface 0
        [⟨BtCodec.aac, "aac", none, 1⟩, ⟨BtCodec.sbc, "sbc", none, 2⟩,
          ⟨BtCodec.ldac, "ldac", none, 3⟩, ⟨BtCodec.aptx, "aptx", none, 4⟩]]).result
        = .ok [⟨BtCodec.ldac, "ldac", none, 3⟩, ⟨BtCodec.aptx, "aptx", none, 4⟩,
            ⟨BtCodec.aac, "aac", none, 1⟩, ⟨BtCodec.sbc, "sbc", none, 2⟩] ∧
      List.Chain' codecLt
        [⟨BtCodec.ldac, "ldac", none, 3⟩, ⟨BtCodec.aptx, "aptx", none, 4⟩,
          ⟨BtCodec.aac, "aac", none, 1⟩, ⟨BtCodec.sbc, "sbc", none, 2⟩] :=
  ⟨rfl,
    C2_amended_ordering
      [FactoryLoad.iface 0
        [⟨BtCodec.aac, "aac", none, 1⟩, ⟨BtCodec.sbc, "sbc", none, 2⟩,
          ⟨BtCodec.ldac, "ldac", none, 3⟩, ⟨BtCodec.aptx, "aptx", none, 4⟩]]
      [⟨BtCodec.ldac, "ldac", none, 3⟩, ⟨BtCodec.aptx, "aptx", none, 4⟩,
        ⟨BtCodec.aac, "aac", none, 1⟩, ⟨BtCodec.sbc, "sbc", none, 2⟩]
      rfl (by decide)⟩

/-! ## Port-map lemmas -/

theorem mget_eq_none : ∀ (t : List (Option Nat)) (i : Nat),
    t.length ≤ i → mget t i = none := by
  intro t
  induction t with
  | nil => intro i _; rfl
  | cons v tl ih =>
    intro i hi
    cases i with
    | zero => simp at hi
    | succ j => exact ih j (by simpa using hi)

theorem length_mset : ∀ (t : List (Option Nat)) (i : Nat) (v : Option Nat),
    (mset t i v).length = t.length := by
  intro t
  induction t with
  | nil => intro i v; rfl
  | cons w tl ih =>
    intro i v
    cases i with
    | zero => rfl
    | succ j => simp [mset, ih]

theorem mset_oob : ∀ (t : List (Option Nat)) (i : Nat) (v : Option Nat),
    t.length ≤ i → mset t i v = t := by
  intro t
  induction t with
  | nil => intro i v _; rfl
  | cons w tl ih =>
    intro i v hi
    cases i with
    | zero => simp at hi
    | succ j => simp [mset, ih j v (by simpa using hi)]

theorem mget_mset_self : ∀ (t : List (Option Nat)) (i : Nat) (v : Option Nat),
    i < t.length → mget (mset t i v) i = v := by
  intro t
  induction t with
  | nil => intro i v hi; simp at hi
  | cons w tl ih =>
    intro i v hi
    cases i with
    | zero => rfl
    | succ j => exact ih j v (by simpa using hi)

theorem mget_mset_ne : ∀ (t : List (Option Nat)) (i j : Nat) (v : Option Nat),
    i ≠ j → mget (mset t j v) i = mget t i := by
  intro t
  induction t with
  | nil => intro i j v _; rfl
  | cons w tl ih =>
    intro i j v hij
    cases j with
    | zero =>
      cases i with
      | zero => exact absurd rfl hij
      | succ i' => rfl
    | succ j' =>
      cases i with
      | zero => rfl
      | succ i' => exact ih i' j' v (by omega)

theorem mget_append : ∀ (t u : List (Option Nat)) (i : Nat),
    mget (t ++ u) i = if i < t.length then mget t i else mget u (i - t.length) := by
  intro t
  induction t with
  | nil => intro u i; simp [mget]
  | cons w tl ih =>
    intro u i
    cases i with
    | zero => simp [mget]
    | succ j =>
      have hred : mget ((w :: tl) ++ u) (j + 1) = mget (tl ++ u) j := rfl
      rw [hred, ih u j]
      by_cases h : j < tl.length
      · rw [if_pos h,
          if_pos (show j + 1 < (w :: tl).length by simp only [List.length_cons]; omega)]
        rfl
      · rw [if_neg h,
          if_neg (show ¬ j + 1 < (w :: tl).length by simp only [List.length_cons]; omega)]
        congr 1
        simp only [List.length_cons]
        omega

theorem mget_replicate : ∀ (k i : Nat), mget (List.replicate k none) i = none := by
  intro k
  induction k with
  | zero => intro i; rfl
  | succ k' ih =>
    intro i
    cases i with
    | zero => rfl
    | succ j => simpa [List.replicate] using ih j

theorem mget_mapInsertAt_self (t : List (Option Nat)) (k : Nat) (v : Option Nat) :
    mget (mapInsertAt t k v) k = v := by
  unfold mapInsertAt
  by_cases h : k < t.length
  · rw [if_pos h]
    exact mget_mset_self t k v h
  · rw [if_neg h, mget_append]
    have hlen2 : (t ++ List.replicate (k - t.length) (none : Option Nat)).length
        = k := by
      simp only [List.length_append, List.length_replicate]
      omega
    rw [hlen2, if_neg (by omega), show k - k = 0 by omega]
    rfl

theorem mget_mapInsertAt_ne (t : List (Option Nat)) (k i : Nat) (v : Option Nat)
    (h : i ≠ k) : mget (mapInsertAt t k v) i = mget t i := by
  unfold mapInsertAt
  by_cases hk : k < t.length
  · rw [if_pos hk]
    exact mget_mset_ne t i k v h
  · rw [if_neg hk, mget_append]
    have hlen2 : (t ++ List.replicate (k - t.length) (none : Option Nat)).length
        = k := by
      simp only [List.length_append, List.length_replicate]
      omega
    rw [hlen2]
    by_cases hik : i < k
    · rw [if_pos hik, mget_append]
      by_cases hi : i < t.length
      · rw [if_pos hi]
      · rw [if_neg hi, mget_replicate, mget_eq_none t i (by omega)]
    · rw [if_neg hik]
      obtain ⟨j, hj⟩ : ∃ j, i - k = j + 1 := ⟨i - k - 1, by omega⟩
      rw [hj, mget_eq_none t i (by omega)]
      rfl

theorem getD_mem : ∀ (l : List Nat) (n : Nat), n < l.length → l.getD n 0 ∈ l := by
  intro l
  induction l with
  | nil => intro n hn; simp at hn
  | cons a tl ih =>
    intro n hn
    cases n with
    | zero => simp
    | succ m => simpa using Or.inr (ih m (by simpa using hn))

theorem mem_getD : ∀ (l : List Nat) (x : Nat), x ∈ l →
    ∃ n, n < l.length ∧ l.getD n 0 = x := by
  intro l
  induction l with
  | nil => intro x hx; simp at hx
  | cons a tl ih =>
    intro x hx
    rcases List.mem_cons.1 hx with rfl | hx
    · exact ⟨0, by simp, rfl⟩
    · obtain ⟨n, hn, he⟩ := ih x hx
      exact ⟨n + 1, by simpa using hn, by simpa using he⟩

theorem pairwise_lt_getD : ∀ (l : List Nat), l.Pairwise (· < ·) →
    ∀ k m, k < m → m < l.length → l.getD k 0 < l.getD m 0 := by
  intro l
  induction l with
  | nil => intro _ k m _ hm; simp at hm
  | cons a tl ih =>
    intro hp k m hkm hm
    obtain ⟨ha, htl⟩ := List.pairwise_cons.1 hp
    cases m with
    | zero => omega
    | succ m' =>
      cases k with
      | zero =>
        simp only [List.getD_cons_zero, List.getD_cons_succ]
        exact ha _ (getD_mem tl m' (by simpa using hm))
      | succ k' =>
        simp only [List.getD_cons_succ]
        exact ih htl k' m' (by omega) (by simpa using hm)

/-- The merge loop never leaves a port at an index the reported id list
does not contain: indices below `o` were either destroyed or confirmed,
indices at or beyond `o` are free. -/
theorem not_mem_of_processed (ids : List Nat) (hasc : ids.Pairwise (· < ·))
    (o n : Nat) (h2 : ∀ k, k < n → ids.getD k 0 < o)
    (hlt : ids.length ≤ n ∨ o < ids.getD n 0) : o ∉ ids := by
  intro hmem
  obtain ⟨k, hk, hke⟩ := mem_getD ids o hmem
  rcases hlt with h | h
  · have := h2 k (by omega)
    omega
  · by_cases hkn : k < n
    · have := h2 k hkn
      omega
    · by_cases hkn2 : n = k
      · subst hkn2
        omega
      · have := pairwise_lt_getD ids hasc n k (by omega) hk
        omega

/-- Invariant-carrying specification of the merge loop: starting from any
loop state whose already-processed prefix agrees with the reported ids,
whose unprocessed suffix is untouched, and over a hole-free initial table
`t0` of size `os₀ = t0.length`, the loop ends with exactly the reported
ids live and the surviving original slots untouched. -/
theorem upmGo_spec (fresh : Nat → Nat) (ids : List Nat) (t0 : List (Option Nat))
    (hasc : ids.Pairwise (· < ·))
    (hfull : ∀ i, i < t0.length → (mget t0 i).isSome = true) :
    ∀ o n os t,
      (∀ k, k < n → ids.getD k 0 < o) →
      (n < ids.length → o ≤ ids.getD n 0) →
      (∀ i, o ≤ i → mget t i = mget t0 i) →
      os ≤ max o t0.length →
      t0.length ≤ os →
      (∀ i, i < o → ((mget t i).isSome = true ↔ i ∈ ids)) →
      (∀ i, i < o → i ∈ ids → i < t0.length → mget t i = mget t0 i) →
      (∀ i, ((mget (upmGo fresh ids o n os t) i).isSome = true ↔ i ∈ ids)) ∧
        (∀ i, i ∈ ids → i < t0.length →
          mget (upmGo fresh ids o n os t) i = mget t0 i) := by
  intro o n os t
  induction o, n, os, t using upmGo.induct fresh ids with
  | case1 o n os t hw hrem ih =>
    intro I2 I4 I3 I7 I5 P1 P2
    rw [upmGo, if_pos hw, dif_pos hrem]
    have hno : o ∉ ids := not_mem_of_processed ids hasc o n I2 hrem
    have hagree : ∀ i, i ≠ o →
        mget (if _ : (mget t o).isSome = true then mset t o none else t) i
          = mget t i := by
      intro i hi
      split_ifs with hs
      · exact mget_mset_ne t i o none hi
      · rfl
    have hato :
        mget (if _ : (mget t o).isSome = true then mset t o none else t) o
          = none := by
      split_ifs with hs
      · by_cases hlen : o < t.length
        · exact mget_mset_self t o none hlen
        · rw [mset_oob t o none (by omega)]
          exact mget_eq_none t o (by omega)
      · cases hmg : mget t o with
        | none => rfl
        | some x => rw [hmg] at hs; simp at hs
    apply ih
    · intro k hk
      have := I2 k hk
      omega
    · intro hn
      rcases hrem with h | h <;> omega
    · intro i hi
      rw [hagree i (by omega)]
      exact I3 i (by omega)
    · exact le_trans I7 (max_le_max (Nat.le_succ o) le_rfl)
    · exact I5
    · intro i hi
      by_cases hio : i = o
      · subst hio
        rw [hato]
        constructor
        · intro hfoo
          simp at hfoo
        · intro hmem
          exact absurd hmem hno
      · rw [hagree i hio]
        exact P1 i (by omega)
    · intro i hi hmem hlen
      by_cases hio : i = o
      · subst hio
        exact absurd hmem hno
      · rw [hagree i hio]
        exact P2 i (by omega) hmem hlen
  | case2 o n os t hw hrem hadd hp ih =>
    intro I2 I4 I3 I7 I5 P1 P2
    exfalso
    have hrem' := hrem
    push_neg at hrem'
    obtain ⟨hnL, hino⟩ := hrem'
    have ho : o = ids.getD n 0 := by
      have := I4 hnL
      omega
    have hos : os ≤ o := by
      rcases hadd with h | h <;> omega
    have hnone : mget t o = none := by
      rw [I3 o le_rfl]
      exact mget_eq_none t0 o (by omega)
    rw [hnone] at hp
    simp at hp
  | case3 o n os t hw hrem hadd hp ih =>
    intro I2 I4 I3 I7 I5 P1 P2
    have hrem' := hrem
    push_neg at hrem'
    obtain ⟨hnL, hino⟩ := hrem'
    have ho : o = ids.getD n 0 := by
      have := I4 hnL
      omega
    have hos : os ≤ o := by
      rcases hadd with h | h <;> omega
    rw [upmGo, if_pos hw, dif_neg hrem, dif_pos hadd, dif_neg hp]
    apply ih
    · intro k hk
      by_cases hkn : k < n
      · have := I2 k hkn
        omega
      · have hk2 : k = n := by omega
        subst hk2
        omega
    · intro hn1
      have := pairwise_lt_getD ids hasc n (n + 1) (by omega) hn1
      omega
    · intro i hi
      rw [mget_mapInsertAt_ne t (ids.getD n 0) i _ (by omega)]
      exact I3 i (by omega)
    · exact le_trans (by omega : os + 1 ≤ ids.getD n 0 + 1) (le_max_left _ _)
    · omega
    · intro i hi
      by_cases hig : i = ids.getD n 0
      · subst hig
        rw [mget_mapInsertAt_self]
        constructor
        · intro _
          exact getD_mem ids n hnL
        · intro _
          rfl
      · rw [mget_mapInsertAt_ne t (ids.getD n 0) i _ hig]
        exact P1 i (by omega)
    · intro i hi hmem hlen
      by_cases hig : i = ids.getD n 0
      · subst hig
        omega
      · rw [mget_mapInsertAt_ne t (ids.getD n 0) i _ hig]
        exact P2 i (by omega) hmem hlen
  | case4 o n os t hw hrem hadd ih =>
    intro I2 I4 I3 I7 I5 P1 P2
    have hrem' := hrem
    push_neg at hrem'
    obtain ⟨hnL, hino⟩ := hrem'
    have hadd' := hadd
    push_neg at hadd'
    obtain ⟨hoos, hog⟩ := hadd'
    have ho : o = ids.getD n 0 := by omega
    have holt : o < t0.length := by
      by_cases hmax : t0.length ≤ o
      · rw [Nat.max_eq_left hmax] at I7
        omega
      · omega
    rw [upmGo, if_pos hw, dif_neg hrem, dif_neg hadd]
    apply ih
    · intro k hk
      by_cases hkn : k < n
      · have := I2 k hkn
        omega
      · have hk2 : k = n := by omega
        subst hk2
        omega
    · intro hn1
      have := pairwise_lt_getD ids hasc n (n + 1) (by omega) hn1
      omega
    · intro i hi
      exact I3 i (by omega)
    · exact le_trans I7 (max_le_max (Nat.le_succ o) le_rfl)
    · exact I5
    · intro i hi
      by_cases hio : i = o
      · subst hio
        rw [I3 i le_rfl]
        constructor
        · intro _
          rw [ho]
          exact getD_mem ids n hnL
        · intro _
          exact hfull i holt
      · exact P1 i (by omega)
    · intro i hi hmem hlen
      by_cases hio : i = o
      · subst hio
        exact I3 i le_rfl
      · exact P2 i (by omega) hmem hlen
  | case5 o n os t hw =>
    intro I2 I4 I3 I7 I5 P1 P2
    have hw' := hw
    push_neg at hw'
    obtain ⟨hoos, hnL⟩ := hw'
    rw [upmGo, if_neg hw]
    constructor
    · intro i
      by_cases hio : i < o
      · exact P1 i hio
      · rw [I3 i (by omega), mget_eq_none t0 i (by omega)]
        constructor
        · intro hfoo
          simp at hfoo
        · intro hmem
          obtain ⟨k, hk, hke⟩ := mem_getD ids i hmem
          have := I2 k (by omega)
          omega
    · intro i hmem hlen
      obtain ⟨k, hk, hke⟩ := mem_getD ids i hmem
      have hki := I2 k (by omega)
      exact P2 i (by omega) hmem hlen

/-- C1 (counterexample): with existing ports `{0, 2, 3}` — which in the
slot-array port map means size 4 with a free slot at id 1 — and reported
ids `{0, 1, 3}`, `update_port_map` destroys port 2 and preserves ports 0
and 3, but does **not** create port 1: at `o == ids[n] == 1 < os` the loop
takes the `unchanged` branch without checking that the slot is occupied,
so the set of live ports `{0, 3}` differs from the reported set. -/
theorem C1_counterexample :
    ¬ ((mget (updatePortMap (fun i => 1000 + i) [0, 1, 3]
          [some 100, none, some 102, some 103]) 1).isSome = true ↔
        1 ∈ [0, 1, 3]) := by
  have hres : updatePortMap (fun i => 1000 + i) [0, 1, 3]
      [some 100, none, some 102, some 103]
      = [some 100, none, none, some 103] := by
    unfold updatePortMap
    simp [upmGo, mget, mset]
  rw [hres]
  decide

/-- C1 (amended): for every **hole-free** port table (every id below the
table size holds a live port) and every strictly ascending reported id
list, after `update_port_map` the set of live ports equals the reported
set, and every port whose id is both live before and reported stays the
identical object (its slot is untouched). -/
theorem C1_amended_reconciliation (fresh : Nat → Nat) (ids : List Nat)
    (t0 : List (Option Nat)) (hasc : ids.Pairwise (· < ·))
    (hfull : ∀ i, i < t0.length → (mget t0 i).isSome = true) :
    (∀ i, ((mget (updatePortMap fresh ids t0) i).isSome = true ↔ i ∈ ids)) ∧
      (∀ i, i ∈ ids → i < t0.length →
        mget (updatePortMap fresh ids t0) i = mget t0 i) := by
  unfold updatePortMap
  exact upmGo_spec fresh ids t0 hasc hfull 0 0 t0.length t0
    (fun k hk => absurd hk (by omega))
    (fun _ => Nat.zero_le _)
    (fun i _ => rfl)
    (le_max_right _ _)
    le_rfl
    (fun i hi => absurd hi (by omega))
    (fun i hi => absurd hi (by omega))

/-- C1 witness: on the hole-free table `{0, 1, 2}` with reported ids
`{0, 2}`, the surviving port 0 keeps its identity. -/
theorem C1_witness :
    mget (updatePortMap (fun i => 1000 + i) [0, 2]
        [some 100, some 101, some 102]) 0
      = mget [some 100, some 101, some 102] 0 :=
  (C1_amended_reconciliation (fun i => 1000 + i) [0, 2]
      [some 100, some 101, some 102] (by decide) (by decide)).2
    0 (by decide) (by decide)

end PW
